import Mathlib

/-!
Verification development for the `codeswitch` tool (src/main.rs): a recursive
repository scanner with symlink aliasing, a device/inode-stamped cache file,
and a multi-stage query resolver.  Filesystem names, paths and file contents
are modelled as raw byte sequences (`List Nat`, one `Nat` per byte), matching
the source's byte-oriented `OsStr`/`Vec<u8>` handling.  Relative paths are
lists of components, as produced by `PathBuf::push` during the scan.
-/

namespace Codeswitch

/-- A byte, as stored in an `OsStr` / cache file.  Modelled as `Nat`; every
byte the program itself produces is `< 256`. -/
abbrev Byte := Nat

/-- A raw byte string (`OsString` / `Vec<u8>`). -/
abbrev ByteStr := List Byte

/-- A path relative to the search root, kept as its list of components
(mirrors the `PathBuf` built up by `push`/`pop` in `scan_dir_recurse`). -/
abbrev RelPath := List ByteStr

/-- The bytes of the name `.git` (0x2e 0x67 0x69 0x74). -/
def gitName : ByteStr := [46, 103, 105, 116]

/-- Render a relative path as the byte string `Path::as_os_str` yields:
components joined by `/` (byte 47). -/
def relBytes : RelPath → ByteStr
  | [] => []
  | [c] => c
  | c :: rest => c ++ 47 :: relBytes rest

/-- `Path::join(dir, rel)` rendered as bytes (`print_codebase` output):
the root directory's bytes, a `/`, then the relative path. -/
def joinRoot (root : ByteStr) (p : RelPath) : ByteStr :=
  root ++ 47 :: relBytes p

/-- `Path::ends_with(wanted)` for a `wanted` with no `/` separator: an empty
`wanted` has no components so every path ends with it; otherwise the path's
final component must equal `wanted` exactly (line 223 of main.rs). -/
def pathEndsWith (p : RelPath) (w : ByteStr) : Bool :=
  if w.isEmpty then true else decide (p.getLast? = some w)

/- ## Filesystem model and the Scanner (`scan_dir_recurse`) -/

/-- A node of the scanned filesystem tree: a directory with named children,
a non-directory file (also standing for gitlink files, sockets, ...), or a
symbolic link storing its raw target name (`read_link`). -/
inductive Node where
  | dir (entries : List (ByteStr × Node))
  | file
  | symlink (target : ByteStr)

/-- Directory lookup by name (`dir.metadata(name)` / `dir.sub_dir(name)`
succeed exactly when the entry exists; directory entry names are unique). -/
def lookupEntry (entries : List (ByteStr × Node)) (name : ByteStr) : Option Node :=
  match entries with
  | [] => none
  | e :: rest => if e.1 = name then some e.2 else lookupEntry rest name

/-- The child node reached by `dir.sub_dir(name)`; dangling lookups default
to `Node.file` (never reached on the paths the scanner takes). -/
def childNode (entries : List (ByteStr × Node)) (name : ByteStr) : Node :=
  match lookupEntry entries name with
  | some t => t
  | none => Node.file

/-- The symlink aliases collected by the listing loop (lines 417-434):
entries that are symlinks whose own name is strictly shorter (in bytes)
than their raw target. -/
def rawAliases (entries : List (ByteStr × Node)) : List (ByteStr × ByteStr) :=
  entries.filterMap (fun e =>
    match e.2 with
    | Node.symlink tgt => if e.1.length < tgt.length then some (e.1, tgt) else none
    | _ => none)

/-- Names of the plain subdirectories collected by the listing loop. -/
def subdirNames (entries : List (ByteStr × Node)) : List ByteStr :=
  entries.filterMap (fun e =>
    match e.2 with
    | Node.dir _ => some e.1
    | _ => none)

/-- `symlinks.retain(|_, target| subdirs.contains(target))` (line 437):
aliases whose target is an existing sibling subdirectory. -/
def keptAliases (entries : List (ByteStr × Node)) : List (ByteStr × ByteStr) :=
  (rawAliases entries).filter (fun a => decide (a.2 ∈ subdirNames entries))

/-- `subdirs.remove(target)` for every kept alias target (lines 440-442):
the plain subdirectories still recursed into directly. -/
def keptPlain (entries : List (ByteStr × Node)) : List ByteStr :=
  (subdirNames entries).filter (fun d => decide (d ∉ (keptAliases entries).map Prod.snd))

/-- Whether `scan_dir_recurse` reported the directory as a codebase. -/
inductive DirType where
  | leaf
  | branch
deriving DecidableEq

/-- `scan_dir_recurse` (lines 391-463).  At a directory: if `.git` exists
(any entry type — the code calls `metadata(".git")` and never checks that
the result is a directory), record the current relative path and report a
leaf.  Otherwise recurse through each kept symlink alias (adding the path
through the target name too when the alias turned out to be a codebase),
then through each remaining plain subdirectory.  The unordered
`HashMap`/`HashSet` iteration of the source is fixed here to listing
order; all theorems below are order-insensitive. -/
def scanNode : Node → RelPath → List RelPath × DirType
  | Node.file, _ => ([], DirType.branch)
  | Node.symlink _, _ => ([], DirType.branch)
  | Node.dir entries, path =>
    if (lookupEntry entries gitName).isSome then
      ([path], DirType.leaf)
    else
      let symRes := (keptAliases entries).map (fun st =>
        let r := scanNode (childNode entries st.2) (path ++ [st.1])
        r.1 ++ (if r.2 = DirType.leaf then [path ++ [st.2]] else []))
      let plainRes := (keptPlain entries).map (fun d =>
        (scanNode (childNode entries d) (path ++ [d])).1)
      (symRes.flatten ++ plainRes.flatten, DirType.branch)
termination_by n _ => sizeOf n
decreasing_by
  all_goals
    have key : ∀ (es : List (ByteStr × Node)) (name : ByteStr),
        sizeOf (childNode es name) ≤ sizeOf es := by
      intro es name
      induction es with
      | nil => simp [childNode, lookupEntry]
      | cons e rest ih =>
        obtain ⟨n, t⟩ := e
        by_cases hh : n = name
        · subst hh
          simp [childNode, lookupEntry]
          omega
        · have heq : childNode ((n, t) :: rest) name = childNode rest name := by
            simp [childNode, lookupEntry, hh]
          rw [heq]
          refine le_trans ih ?_
          simp only [List.cons.sizeOf_spec]
          omega
  · have h := key entries st.2
    simp only [Node.dir.sizeOf_spec]
    omega
  · have h := key entries d
    simp only [Node.dir.sizeOf_spec]
    omega

/-- `scan_dir` (line 377): scan from the root with an empty relative path. -/
def scanDir (root : Node) : List RelPath :=
  (scanNode root []).1

/- ## Cache (`read_cache_file`, `build_cache`) -/

/-- `write_u64::<LittleEndian>`: the eight little-endian bytes of `n`
(values taken mod 256 per byte). -/
def u64le (n : Nat) : ByteStr :=
  [n % 256, n / 256 % 256, n / 256 ^ 2 % 256, n / 256 ^ 3 % 256,
   n / 256 ^ 4 % 256, n / 256 ^ 5 % 256, n / 256 ^ 6 % 256, n / 256 ^ 7 % 256]

/-- `read_u64::<LittleEndian>`: consume eight bytes (little-endian) or fail
with an end-of-file I/O error. -/
def readU64 (l : ByteStr) : Option (Nat × ByteStr) :=
  match l with
  | b0 :: b1 :: b2 :: b3 :: b4 :: b5 :: b6 :: b7 :: rest =>
    some (b0 + 256 * b1 + 256 ^ 2 * b2 + 256 ^ 3 * b3 + 256 ^ 4 * b4
            + 256 ^ 5 * b5 + 256 ^ 6 * b6 + 256 ^ 7 * b7, rest)
  | _ => none

/-- `reader.read_until(b'\0', &mut buf)` (line 336): the bytes up to and
including the first NUL (or to end-of-file), paired with the remainder. -/
def readChunk : ByteStr → ByteStr × ByteStr
  | [] => ([], [])
  | b :: rest =>
    if b = 0 then ([0], rest)
    else
      let r := readChunk rest
      (b :: r.1, r.2)

/-- The trim-tail loop (lines 345-347): pop every trailing NUL byte. -/
def dropTrailingNuls (l : ByteStr) : ByteStr :=
  (l.reverse.dropWhile (fun b => decide (b = 0))).reverse

/-- The decode loop of `read_cache_file` (lines 333-350): repeatedly
`read_until` NUL, trim trailing NULs, and collect, until end-of-file. -/
def decodeEntries : ByteStr → List ByteStr
  | [] => []
  | b :: rest =>
    dropTrailingNuls (readChunk (b :: rest)).1 :: decodeEntries (readChunk (b :: rest)).2
termination_by l => l.length
decreasing_by
  have hle : ∀ l : ByteStr, (readChunk l).2.length ≤ l.length := by
    intro l
    induction l with
    | nil => simp [readChunk]
    | cons c tl ih =>
      by_cases h : c = 0
      · simp [readChunk, h]
      · simp only [readChunk, if_neg h]
        exact le_trans ih (Nat.le_succ _)
  have h : (readChunk (b :: rest)).2.length ≤ rest.length := by
    by_cases hb : b = 0
    · simp [readChunk, hb]
    · simp only [readChunk, if_neg hb]
      exact hle rest
  simp only [List.length_cons]
  omega

/-- `read_cache_file` (lines 319-351): decode the stored device id and
inode number (any truncation is an I/O error, `.error`); on a stamp
mismatch with the live root report no cache (`.ok none`); otherwise decode
the NUL-terminated entries, an empty sequence also reporting no cache. -/
def readCacheFile (liveDev liveIno : Nat) (file : ByteStr) :
    Except Unit (Option (List ByteStr)) :=
  match readU64 file with
  | none => Except.error ()
  | some (cachedDev, r1) =>
    match readU64 r1 with
    | none => Except.error ()
    | some (cachedIno, r2) =>
      if cachedDev ≠ liveDev ∨ cachedIno ≠ liveIno then Except.ok none
      else
        let es := decodeEntries r2
        if es.isEmpty then Except.ok none else Except.ok (some es)

/-- The bytes `build_cache` (lines 353-375) writes: the live stamp of the
scanned root followed by every entry NUL-terminated, in scan order. -/
def encodeCache (dev ino : Nat) (entries : List ByteStr) : ByteStr :=
  u64le dev ++ u64le ino ++ (entries.map (fun e => e ++ [0])).flatten

/- ## Resolver (`resolve_default` and the tail of `run`) -/

/-- A compiled glob pattern, kept abstract (the `glob` crate is an external
collaborator): only its verdict on a candidate path is observable. -/
abbrev Pat := RelPath → Bool

/-- The configuration consumed by the resolver (`Config`, lines 37-40):
exact-name defaults (a `HashMap`, modelled as an association list with
unique keys) and glob patterns in file order. -/
structure Config where
  defaults : List (ByteStr × ByteStr)
  patterns : List Pat

/-- `HashMap::get` over the modelled association list. -/
def lookupAssoc (l : List (ByteStr × ByteStr)) (k : ByteStr) : Option ByteStr :=
  match l with
  | [] => none
  | e :: rest => if e.1 = k then some e.2 else lookupAssoc rest k

/-- The `for (i, x) in iter().enumerate() { if p x { return Some(i) } }`
loop shape used twice in `resolve_default`: index of the first element
satisfying the test. -/
def findFirstIdx (p : α → Bool) : List α → Option Nat
  | [] => none
  | a :: l => if p a then some 0 else (findFirstIdx p l).map (· + 1)

/-- The per-name default stage of `resolve_default` (lines 104-110): if an
exact-name rule exists for the wanted name, the first candidate whose
rendered path equals the rule's literal path. -/
def exactStage (config : Config) (wanted : ByteStr) (codebases : List RelPath) : Option Nat :=
  match lookupAssoc config.defaults wanted with
  | none => none
  | some dpath => findFirstIdx (fun p => decide (relBytes p = dpath)) codebases

/-- The glob stage of `resolve_default` (lines 113-119): patterns in
configured order, and for each pattern the candidates in their current
order; the first hit anywhere wins. -/
def globStage : List Pat → List RelPath → Option Nat
  | [], _ => none
  | p :: rest, codebases =>
    match findFirstIdx p codebases with
    | some i => some i
    | none => globStage rest codebases

/-- `resolve_default` (lines 96-122): per-name defaults first; when that
selects nothing, the glob patterns. -/
def resolve_default (config : Config) (wanted : ByteStr) (codebases : List RelPath) :
    Option Nat :=
  match exactStage config wanted codebases with
  | some i => some i
  | none => globStage config.patterns codebases

/-- The query as split by `main` (lines 140-150): the wanted name (bytes
before the first `/` of the CODEBASE argument), the verbatim remainder
from that `/` on, and the raw FILTER argument bytes. -/
structure Query where
  wanted : ByteStr
  subdir : Option ByteStr
  filterBytes : ByteStr

/-- An ASCII decimal digit. -/
def isDigitB (b : Byte) : Bool := decide (48 ≤ b) && decide (b ≤ 57)

/-- Value of a nonempty all-digit byte string, or `none` (an empty or
non-digit string, or a value overflowing 64-bit `usize`, is a parse
error). -/
def digitsVal (l : ByteStr) : Option Nat :=
  if l.isEmpty then none
  else if l.all isDigitB then
    let v := l.foldl (fun acc b => acc * 10 + (b - 48)) 0
    if v < 2 ^ 64 then some v else none
  else none

/-- `usize::from_str` on the FILTER argument (line 232): an optional `+`
sign followed by decimal digits. -/
def parseUsize (l : ByteStr) : Option Nat :=
  match l with
  | 43 :: rest => digitsVal rest
  | _ => digitsVal l

/-- `windows(k).any(|w| w == needle)` (lines 251-252): some contiguous
slice of `hay` equals `needle`. -/
def containsSeq (hay needle : ByteStr) : Bool :=
  (List.range (hay.length + 1)).any (fun i => decide ((hay.drop i).take needle.length = needle))

/-- The substring-filter predicate (lines 245-253): the candidate's
rendered bytes with the wanted name's own trailing bytes removed must
contain the filter as a raw byte substring.  The length subtraction is the
one the safety claim below is about; `Nat` subtraction truncates where the
Rust `usize` subtraction would panic. -/
def substrFilter (wanted fb : ByteStr) (p : RelPath) : Bool :=
  containsSeq ((relBytes p).take ((relBytes p).length - wanted.length)) fb

/-- `codebases.retain(|path| path.ends_with(wanted_codebase))` (line 223). -/
def matchStage (w : ByteStr) (l : List RelPath) : List RelPath :=
  l.filter (fun p => pathEndsWith p w)

/-- Lines 223-229: the name match, plus the single rescan-and-rewrite retry
when the match is empty and the path set came from the cache.  The second
component counts the `build_cache` calls this stage performs. -/
def candidatesAfter (w : ByteStr) (wasCached : Bool) (initial fresh : List RelPath) :
    List RelPath × Nat :=
  if (matchStage w initial).isEmpty && wasCached then (matchStage w fresh, 1)
  else (matchStage w initial, 0)

/-- The substring filter stage (lines 244-254): applied only when the
filter token is nonempty (and, per the caller, did not parse as an
integer). -/
def substrStage (w fb : ByteStr) (l : List RelPath) : List RelPath :=
  if fb.isEmpty then l else l.filter (fun p => substrFilter w fb p)

/-- Observable outcome of `run` after the path set was obtained: the
wildcard listing, a resolved path written to stdout, one of the error
exits (those that first print a numbered candidate list carry the joined
paths printed), or the panic of the wildcard loop's
`file_name().unwrap()` on an entry with no final component. -/
inductive RunResult where
  | wildcardOut (names : List ByteStr)
  | ok (out : ByteStr)
  | errIndexRange (printed : List ByteStr)
  | errNoMatches
  | errAmbiguous (printed : List ByteStr)
  | panicked
deriving DecidableEq

/-- The wildcard loop (lines 211-215): collect `file_name().unwrap()` of
every entry; the unwrap panics (`none`) as soon as an entry has no final
component — which happens for the empty relative path, emitted when the
search root is itself a repository. -/
def collectBasenames : List RelPath → Option (List ByteStr)
  | [] => some []
  | p :: rest =>
    match p.getLast? with
    | none => none
    | some b => (collectBasenames rest).map (fun bs => b :: bs)

/-- The resolution pipeline of `run` (lines 208-287), starting from the
obtained path set `initial` (with `wasCached` telling whether it came from
the cache) and the result `fresh` a forced rescan would produce: wildcard
short-circuit (its per-entry `file_name().unwrap()` panics on an entry
with no final component), name match with single stale-cache retry,
integer index filter (note: its success path prints no subdirectory
suffix), substring filter, and disambiguation via `resolve_default`. -/
def runResolve (config : Config) (root : ByteStr) (q : Query)
    (wasCached : Bool) (initial fresh : List RelPath) : RunResult :=
  if q.wanted = [95] then
    match collectBasenames initial with
    | none => RunResult.panicked
    | some bs => RunResult.wildcardOut bs.dedup
  else
    let cands := (candidatesAfter q.wanted wasCached initial fresh).1
    match parseUsize q.filterBytes with
    | some idx =>
      if 0 < idx ∧ idx ≤ cands.length then
        RunResult.ok (joinRoot root (cands.getD (idx - 1) []) ++ [10])
      else
        RunResult.errIndexRange (cands.map (joinRoot root))
    | none =>
      match substrStage q.wanted q.filterBytes cands with
      | [] => RunResult.errNoMatches
      | [c] => RunResult.ok (joinRoot root c ++ q.subdir.getD [] ++ [10])
      | c :: c2 :: rest =>
        match resolve_default config q.wanted (c :: c2 :: rest) with
        | some i =>
          RunResult.ok (joinRoot root ((c :: c2 :: rest).getD i []) ++ q.subdir.getD [] ++ [10])
        | none => RunResult.errAmbiguous ((c :: c2 :: rest).map (joinRoot root))

/- ## Concrete values used in witnesses -/

/-- Example glob rule matching nothing (the spec's `p1`). -/
def patC6a : Pat := fun _ => false

/-- Example glob rule matching only `bar/proj` (the spec's `p2`). -/
def patC6b : Pat := fun c => decide (c = [[98, 97, 114], [112, 114, 111, 106]])

/-- Example candidate list `[foo/proj, bar/proj]`. -/
def cbsC6 : List RelPath :=
  [[[102, 111, 111], [112, 114, 111, 106]], [[98, 97, 114], [112, 114, 111, 106]]]

/-- Example configuration with no exact defaults and rules `p1`, `p2`. -/
def cfgC6 : Config := ⟨[], [patC6a, patC6b]⟩

/- ## General lemmas -/

theorem getLast_mem_of_eq_some {α : Type} {l : List α} {a : α}
    (h : l.getLast? = some a) : a ∈ l := by
  induction l with
  | nil => cases h
  | cons b t ih =>
    cases t with
    | nil =>
      simp only [List.getLast?_singleton, Option.some.injEq] at h
      simp [h]
    | cons c r =>
      rw [List.getLast?_cons_cons] at h
      exact List.mem_cons_of_mem b (ih h)

theorem length_le_relBytes {c : ByteStr} {p : RelPath} (h : c ∈ p) :
    c.length ≤ (relBytes p).length := by
  induction p with
  | nil => cases h
  | cons a t ih =>
    cases t with
    | nil =>
      simp only [List.mem_singleton] at h
      subst h
      simp [relBytes]
    | cons b r =>
      have hshape : relBytes (a :: b :: r) = a ++ 47 :: relBytes (b :: r) := rfl
      rw [hshape]
      rcases List.mem_cons.mp h with rfl | hm
      · simp
      · have := ih hm
        simp only [List.length_append, List.length_cons]
        omega

/- ## Scanner lemmas -/

theorem scanNode_dir_git (entries : List (ByteStr × Node)) (path : RelPath)
    (h : (lookupEntry entries gitName).isSome) :
    scanNode (Node.dir entries) path = ([path], DirType.leaf) := by
  simp only [scanNode]
  rw [if_pos h]

theorem scanNode_leaf_fst (n : Node) (path : RelPath)
    (h : (scanNode n path).2 = DirType.leaf) : (scanNode n path).1 = [path] := by
  cases n with
  | file => simp [scanNode] at h
  | symlink t => simp [scanNode] at h
  | dir entries =>
    by_cases hg : (lookupEntry entries gitName).isSome
    · simp [scanNode_dir_git entries path hg]
    · simp only [scanNode] at h
      rw [if_neg hg] at h
      simp at h

theorem mem_rawAliases (entries : List (ByteStr × Node)) (S T : ByteStr) :
    (S, T) ∈ rawAliases entries ↔
      (S, Node.symlink T) ∈ entries ∧ S.length < T.length := by
  unfold rawAliases
  rw [List.mem_filterMap]
  constructor
  · rintro ⟨⟨n, t⟩, hmem, hf⟩
    cases t with
    | symlink tgt =>
      by_cases hl : n.length < tgt.length
      · simp only [if_pos hl, Option.some.injEq, Prod.mk.injEq] at hf
        obtain ⟨rfl, rfl⟩ := hf
        exact ⟨hmem, hl⟩
      · simp [hl] at hf
    | dir es => simp at hf
    | file => simp at hf
  · rintro ⟨hmem, hl⟩
    exact ⟨(S, Node.symlink T), hmem, by simp [hl]⟩

theorem mem_subdirNames (entries : List (ByteStr × Node)) (T : ByteStr) :
    T ∈ subdirNames entries ↔ ∃ es, (T, Node.dir es) ∈ entries := by
  unfold subdirNames
  rw [List.mem_filterMap]
  constructor
  · rintro ⟨⟨n, t⟩, hmem, hf⟩
    cases t with
    | dir es =>
      simp only [Option.some.injEq] at hf
      subst hf
      exact ⟨es, hmem⟩
    | symlink tgt => simp at hf
    | file => simp at hf
  · rintro ⟨es, hmem⟩
    exact ⟨(T, Node.dir es), hmem, rfl⟩

theorem mem_keptAliases (entries : List (ByteStr × Node)) (S T : ByteStr) :
    (S, T) ∈ keptAliases entries ↔
      (S, T) ∈ rawAliases entries ∧ T ∈ subdirNames entries := by
  unfold keptAliases
  rw [List.mem_filter]
  simp

/- ## C1 -/

/-- C1 counterexample: in a directory whose `.git` entry is a plain file
(a submodule gitlink), the scan still records the directory and reports a
leaf — the claimed dead-end behaviour (no entry recorded, "branch"
returned) is false at this input. -/
theorem C1_counterexample :
    scanNode (Node.dir [(gitName, Node.file)]) [] = ([[]], DirType.leaf) ∧
    (([[]], DirType.leaf) : List RelPath × DirType) ≠ ([], DirType.branch) := by
  constructor
  · simp [scanNode, lookupEntry]
  · intro h
    cases h

/-- C1 (amended): any directory entry named `.git` — directory or not —
makes the visited directory a recorded leaf: the scan records exactly the
directory's relative path, does not recurse below it, and returns
"leaf". -/
theorem C1_amended (entries : List (ByteStr × Node)) (t : Node) (path : RelPath)
    (h : lookupEntry entries gitName = some t) :
    scanNode (Node.dir entries) path = ([path], DirType.leaf) :=
  scanNode_dir_git entries path (by simp [h])

/-- C1 witness: the amended claim at a concrete directory whose `.git`
entry is a plain file. -/
theorem C1_witness :
    scanNode (Node.dir [(gitName, Node.file)]) [[120]] = ([[[120]]], DirType.leaf) :=
  C1_amended [(gitName, Node.file)] Node.file [[120]] rfl

/- ## C3 -/

/-- C3: a symlink `S` with target name `T` is traversed as an alias exactly
when `T` is a sibling plain subdirectory and `S` is strictly shorter than
`T` in bytes; a traversed alias removes `T` from the plain recursion set;
and when the directory reached through the alias is a repository root the
scan records both the path ending in `S` and the path ending in `T`. -/
theorem C3 (entries : List (ByteStr × Node)) (S T : ByteStr) (path : RelPath)
    (hgit : lookupEntry entries gitName = none) :
    ((S, T) ∈ keptAliases entries ↔
      ((S, Node.symlink T) ∈ entries ∧ S.length < T.length ∧
        T ∈ subdirNames entries)) ∧
    ((S, T) ∈ keptAliases entries → T ∉ keptPlain entries) ∧
    ((S, T) ∈ keptAliases entries →
      (scanNode (childNode entries T) (path ++ [S])).2 = DirType.leaf →
      (path ++ [S]) ∈ (scanNode (Node.dir entries) path).1 ∧
      (path ++ [T]) ∈ (scanNode (Node.dir entries) path).1) := by
  refine ⟨?_, ?_, ?_⟩
  · rw [mem_keptAliases, mem_rawAliases]
    tauto
  · intro hmem hplain
    unfold keptPlain at hplain
    rw [List.mem_filter] at hplain
    have hT : T ∈ (keptAliases entries).map Prod.snd :=
      List.mem_map_of_mem Prod.snd hmem
    simp only [decide_eq_true_eq] at hplain
    exact hplain.2 hT
  · intro hmem hleaf
    have hg : ¬ (lookupEntry entries gitName).isSome := by simp [hgit]
    have hblock :
        ((scanNode (childNode entries T) (path ++ [S])).1 ++
          (if (scanNode (childNode entries T) (path ++ [S])).2 = DirType.leaf
            then [path ++ [T]] else [])) ∈
          ((keptAliases entries).map (fun st =>
            let r := scanNode (childNode entries st.2) (path ++ [st.1])
            r.1 ++ (if r.2 = DirType.leaf then [path ++ [st.2]] else []))) := by
      exact List.mem_map_of_mem _ hmem
    have hfst := scanNode_leaf_fst _ _ hleaf
    rw [hleaf, if_pos rfl, hfst] at hblock
    have hres : (scanNode (Node.dir entries) path).1 =
        ((keptAliases entries).map (fun st =>
          let r := scanNode (childNode entries st.2) (path ++ [st.1])
          r.1 ++ (if r.2 = DirType.leaf then [path ++ [st.2]] else []))).flatten ++
        ((keptPlain entries).map (fun d =>
          (scanNode (childNode entries d) (path ++ [d])).1)).flatten := by
      simp only [scanNode]
      rw [if_neg hg]
    rw [hres]
    constructor
    · exact List.mem_append_left _
        (List.mem_flatten.mpr ⟨_, hblock, by simp⟩)
    · exact List.mem_append_left _
        (List.mem_flatten.mpr ⟨_, hblock, by simp⟩)

/-- C3 witness: scanning a directory holding symlink `s` → `tgt` and a
repository subdirectory `tgt` records both the alias path and the target
path. -/
theorem C3_witness :
    (([115], [116, 103, 116]) ∈
      keptAliases [([115], Node.symlink [116, 103, 116]),
        ([116, 103, 116], Node.dir [(gitName, Node.dir [])])]) ∧
    ([[115]] : RelPath) ∈ (scanNode (Node.dir [([115], Node.symlink [116, 103, 116]),
        ([116, 103, 116], Node.dir [(gitName, Node.dir [])])]) []).1 ∧
    ([[116, 103, 116]] : RelPath) ∈
      (scanNode (Node.dir [([115], Node.symlink [116, 103, 116]),
        ([116, 103, 116], Node.dir [(gitName, Node.dir [])])]) []).1 := by
  have h := C3 [([115], Node.symlink [116, 103, 116]),
    ([116, 103, 116], Node.dir [(gitName, Node.dir [])])] [115] [116, 103, 116] [] rfl
  have hmem : ([115], [116, 103, 116]) ∈
      keptAliases [([115], Node.symlink [116, 103, 116]),
        ([116, 103, 116], Node.dir [(gitName, Node.dir [])])] := by decide
  have hleaf : (scanNode (childNode [([115], Node.symlink [116, 103, 116]),
      ([116, 103, 116], Node.dir [(gitName, Node.dir [])])] [116, 103, 116])
      (([] : RelPath) ++ [[115]])).2 = DirType.leaf := by
    simp [childNode, lookupEntry, scanNode]
  have hc := h.2.2 hmem hleaf
  exact ⟨hmem, by simpa using hc.1, by simpa using hc.2⟩

/- ## Cache lemmas -/

theorem readU64_u64le (n : Nat) (rest : ByteStr) (h : n < 2 ^ 64) :
    readU64 (u64le n ++ rest) = some (n, rest) := by
  have h64 : n < 18446744073709551616 := by
    norm_num at h
    exact h
  have hval : n % 256 + 256 * (n / 256 % 256) + 65536 * (n / 65536 % 256)
      + 16777216 * (n / 16777216 % 256) + 4294967296 * (n / 4294967296 % 256)
      + 1099511627776 * (n / 1099511627776 % 256)
      + 281474976710656 * (n / 281474976710656 % 256)
      + 72057594037927936 * (n / 72057594037927936 % 256) = n := by
    omega
  simp only [u64le, List.cons_append, List.nil_append, readU64]
  norm_num
  omega

theorem readChunk_append_nul (e rest : ByteStr) (h : 0 ∉ e) :
    readChunk (e ++ 0 :: rest) = (e ++ [0], rest) := by
  induction e with
  | nil => simp [readChunk]
  | cons a e ih =>
    have ha : a ≠ 0 := by
      intro hh
      exact h (by simp [hh])
    have h0 : (0 : Byte) ∉ e := fun hm => h (by simp [hm])
    simp [readChunk, ha, ih h0]

theorem dropTrailingNuls_append_nul (e : ByteStr) (h : 0 ∉ e) :
    dropTrailingNuls (e ++ [0]) = e := by
  unfold dropTrailingNuls
  rw [List.reverse_append]
  have hrev : List.dropWhile (fun b => decide (b = 0)) (0 :: e.reverse) =
      List.dropWhile (fun b => decide (b = 0)) e.reverse := by
    simp [List.dropWhile_cons]
  have hself : List.dropWhile (fun b => decide (b = 0)) e.reverse = e.reverse := by
    cases hr : e.reverse with
    | nil => rfl
    | cons a tl =>
      have ha : a ≠ 0 := by
        intro hh
        subst hh
        have : (0 : Byte) ∈ e.reverse := by rw [hr]; simp
        exact h (List.mem_reverse.mp this)
      simp [List.dropWhile_cons, ha]
  simp only [List.reverse_cons, List.reverse_nil, List.nil_append,
    List.singleton_append]
  rw [hrev, hself, List.reverse_reverse]

theorem decodeEntries_ne_nil (l : ByteStr) (h : l ≠ []) :
    decodeEntries l =
      dropTrailingNuls (readChunk l).1 :: decodeEntries (readChunk l).2 := by
  cases l with
  | nil => exact absurd rfl h
  | cons b rest => simp [decodeEntries]

theorem decode_encode (entries : List ByteStr) (h : ∀ e ∈ entries, 0 ∉ e) :
    decodeEntries ((entries.map (fun e => e ++ [0])).flatten) = entries := by
  induction entries with
  | nil => simp [decodeEntries]
  | cons e es ih =>
    have h0 : (0 : Byte) ∉ e := h e (by simp)
    have hes : ∀ x ∈ es, (0 : Byte) ∉ x := fun x hx => h x (by simp [hx])
    have hshape : ((e :: es).map (fun x => x ++ [0])).flatten =
        e ++ 0 :: (es.map (fun x => x ++ [0])).flatten := by
      simp
    rw [hshape, decodeEntries_ne_nil _ (by simp),
      readChunk_append_nul e _ h0]
    simp only
    rw [dropTrailingNuls_append_nul e h0, ih hes]

/- ## C4 -/

/-- C4: a cache file whose stored (device, inode) stamp differs from the
live stamp of the search root reads as "no cache" (`none`), never as the
stored entries; entries are returned only when both stamp components
match. -/
theorem C4 (liveDev liveIno dev ino : Nat) (rest : ByteStr)
    (hdev : dev < 2 ^ 64) (hino : ino < 2 ^ 64) :
    (dev ≠ liveDev ∨ ino ≠ liveIno →
      readCacheFile liveDev liveIno (u64le dev ++ u64le ino ++ rest) =
        Except.ok none) ∧
    (∀ es, readCacheFile liveDev liveIno (u64le dev ++ u64le ino ++ rest) =
        Except.ok (some es) →
      dev = liveDev ∧ ino = liveIno) := by
  have h1 : readU64 (u64le dev ++ (u64le ino ++ rest)) =
      some (dev, u64le ino ++ rest) := readU64_u64le dev _ hdev
  have h2 : readU64 (u64le ino ++ rest) = some (ino, rest) :=
    readU64_u64le ino rest hino
  constructor
  · intro hne
    simp only [readCacheFile, List.append_assoc, h1, h2]
    rw [if_pos hne]
  · intro es hes
    simp only [readCacheFile, List.append_assoc, h1, h2] at hes
    by_cases hd : dev ≠ liveDev ∨ ino ≠ liveIno
    · rw [if_pos hd] at hes
      cases hes
    · push_neg at hd
      exact hd

/-- C4 witness: a concrete mismatching stamp reads as no cache, applying
the theorem at device 1 / inode 2 against live stamp (3, 2). -/
theorem C4_witness :
    readCacheFile 3 2 (u64le 1 ++ u64le 2 ++ [97, 0]) = Except.ok none :=
  (C4 3 2 1 2 [97, 0] (by norm_num) (by norm_num)).1 (by left; decide)

/- ## C5 -/

/-- C5: cache round-trip — writing a scan result whose entries are NUL-free
and reading it back under an unchanged identity stamp returns exactly the
same entries in order; the empty result reads back as "no cache". -/
theorem C5 (dev ino : Nat) (entries : List ByteStr)
    (hdev : dev < 2 ^ 64) (hino : ino < 2 ^ 64)
    (hnul : ∀ e ∈ entries, (0 : Byte) ∉ e) :
    readCacheFile dev ino (encodeCache dev ino entries) =
      Except.ok (if entries.isEmpty then none else some entries) := by
  have h1 : readU64 (u64le dev ++ (u64le ino ++ (entries.map (fun e => e ++ [0])).flatten)) =
      some (dev, u64le ino ++ (entries.map (fun e => e ++ [0])).flatten) :=
    readU64_u64le dev _ hdev
  have h2 : readU64 (u64le ino ++ (entries.map (fun e => e ++ [0])).flatten) =
      some (ino, (entries.map (fun e => e ++ [0])).flatten) :=
    readU64_u64le ino _ hino
  simp only [encodeCache, readCacheFile, List.append_assoc, h1, h2]
  rw [if_neg (by simp), decode_encode entries hnul]
  cases entries with
  | nil => simp
  | cons e es => simp

/-- C5 witness: a concrete round-trip through the cache encoding, applying
the theorem at stamp (1, 2) with entries `a` and `bc`. -/
theorem C5_witness :
    readCacheFile 1 2 (encodeCache 1 2 [[97], [98, 99]]) =
      Except.ok (some [[97], [98, 99]]) :=
  C5 1 2 [[97], [98, 99]] (by norm_num) (by norm_num) (by decide)

/- ## Resolver lemmas -/

theorem findFirstIdx_eq_none {α : Type} (p : α → Bool) (l : List α)
    (h : ∀ c ∈ l, p c = false) : findFirstIdx p l = none := by
  induction l with
  | nil => rfl
  | cons a t ih =>
    have ha := h a (by simp)
    simp only [findFirstIdx, ha, Bool.false_eq_true, if_false]
    rw [ih (fun c hc => h c (by simp [hc]))]
    rfl

theorem findFirstIdx_isSome {α : Type} (p : α → Bool) (l : List α)
    (h : ∃ c ∈ l, p c = true) : ∃ i, findFirstIdx p l = some i := by
  induction l with
  | nil => simp at h
  | cons a t ih =>
    by_cases ha : p a = true
    · exact ⟨0, by simp [findFirstIdx, ha]⟩
    · obtain ⟨c, hc, hpc⟩ := h
      rcases List.mem_cons.mp hc with rfl | hm
      · exact absurd hpc ha
      · obtain ⟨i, hi⟩ := ih ⟨c, hm, hpc⟩
        refine ⟨i + 1, ?_⟩
        simp [findFirstIdx, ha, hi]

theorem findFirstIdx_spec {α : Type} (p : α → Bool) (l : List α) (i : Nat)
    (h : findFirstIdx p l = some i) :
    ∃ c, l[i]? = some c ∧ p c = true ∧ ∀ d ∈ l.take i, p d = false := by
  induction l generalizing i with
  | nil => cases h
  | cons a t ih =>
    by_cases ha : p a = true
    · simp only [findFirstIdx, ha, if_true] at h
      injection h with h
      subst h
      exact ⟨a, by simp, ha, by simp⟩
    · have ha2 : p a = false := by
        cases hpa : p a with
        | true => exact absurd hpa ha
        | false => rfl
      simp only [findFirstIdx, ha, Bool.false_eq_true, if_false] at h
      cases hft : findFirstIdx p t with
      | none => rw [hft] at h; cases h
      | some j =>
        rw [hft] at h
        simp only [Option.map_some'] at h
        injection h with h
        subst h
        obtain ⟨c, hc1, hc2, hc3⟩ := ih j hft
        refine ⟨c, by simpa using hc1, hc2, ?_⟩
        intro d hd
        rw [List.take_succ_cons] at hd
        rcases List.mem_cons.mp hd with rfl | hm
        · exact ha2
        · exact hc3 d hm

theorem globStage_append (pre : List Pat) (p : Pat) (post : List Pat)
    (cbs : List RelPath)
    (hpre : ∀ q ∈ pre, ∀ c ∈ cbs, q c = false)
    (hp : ∃ c ∈ cbs, p c = true) :
    globStage (pre ++ p :: post) cbs = findFirstIdx p cbs := by
  induction pre with
  | nil =>
    obtain ⟨i, hi⟩ := findFirstIdx_isSome p cbs hp
    simp [globStage, hi]
  | cons q pre ih =>
    have hq : findFirstIdx q cbs = none :=
      findFirstIdx_eq_none _ _ (hpre q (by simp))
    simp only [List.cons_append, globStage, hq]
    exact ih (fun r hr c hc => hpre r (by simp [hr]) c hc)

/- ## C6 -/

/-- C6: with more than the exact-name stage able to decide — i.e. when the
exact-name default stage selects nothing — `resolve_default` consults glob
rules pattern-major, candidate-minor: if every rule declared before `p`
matches no candidate and `p` matches some candidate, the selection is the
first candidate (in current order) matched by `p`; later-declared rules
are irrelevant. -/
theorem C6 (config : Config) (wanted : ByteStr) (cbs : List RelPath)
    (pre post : List Pat) (p : Pat)
    (hpats : config.patterns = pre ++ p :: post)
    (hexact : exactStage config wanted cbs = none)
    (hpre : ∀ q ∈ pre, ∀ c ∈ cbs, q c = false)
    (hp : ∃ c ∈ cbs, p c = true) :
    resolve_default config wanted cbs = findFirstIdx p cbs ∧
    (∀ i, findFirstIdx p cbs = some i →
      ∃ c, cbs[i]? = some c ∧ p c = true ∧ ∀ d ∈ cbs.take i, p d = false) := by
  constructor
  · simp only [resolve_default, hexact, hpats]
    exact globStage_append pre p post cbs hpre hp
  · intro i hi
    exact findFirstIdx_spec p cbs i hi

/-- C6 witness: the spec's own example — rules `p1` (matches nothing) and
`p2` (matches `bar/proj`) against candidates `[foo/proj, bar/proj]` select
`bar/proj` (index 1). -/
theorem C6_witness : resolve_default cfgC6 [112, 114, 111, 106] cbsC6 = some 1 := by
  have hpre : ∀ q ∈ [patC6a], ∀ c ∈ cbsC6, q c = false := by
    intro q hq c hc
    simp only [List.mem_singleton] at hq
    subst hq
    rfl
  have hp : ∃ c ∈ cbsC6, patC6b c = true :=
    ⟨[[98, 97, 114], [112, 114, 111, 106]], by decide, by decide⟩
  have h := (C6 cfgC6 [112, 114, 111, 106] cbsC6 [patC6a] [] patC6b rfl rfl hpre hp).1
  rw [h]
  decide

/- ## C7 -/

/-- C7: when the name match over the obtained path set is empty and that
set came from the cache, the resolver performs exactly one
rescan-and-rewrite and repeats the name match once against the fresh scan;
a fresh-scan source never triggers a rescan, and in every case at most one
rescan happens — even when the retry also matches nothing. -/
theorem C7 (w : ByteStr) (initial fresh : List RelPath) :
    (candidatesAfter w false initial fresh = (matchStage w initial, 0)) ∧
    (matchStage w initial ≠ [] → ∀ b : Bool,
      candidatesAfter w b initial fresh = (matchStage w initial, 0)) ∧
    (matchStage w initial = [] →
      candidatesAfter w true initial fresh = (matchStage w fresh, 1)) ∧
    (∀ b : Bool, (candidatesAfter w b initial fresh).2 ≤ 1) := by
  refine ⟨?_, ?_, ?_, ?_⟩
  · simp [candidatesAfter]
  · intro h b
    have hne : (matchStage w initial).isEmpty = false := by
      cases hm : matchStage w initial with
      | nil => exact absurd hm h
      | cons a t => rfl
    simp [candidatesAfter, hne]
  · intro h
    simp [candidatesAfter, h]
  · intro b
    by_cases hc : ((matchStage w initial).isEmpty && b) = true
    · simp [candidatesAfter, hc]
    · simp [candidatesAfter, hc]

/-- C7 witness: an empty cached match with a fresh scan containing `a`
rescans exactly once and matches against the fresh result. -/
theorem C7_witness :
    candidatesAfter [97] true [] [[[97]]] = ([[[97]]], 1) ∧
    (candidatesAfter [97] true [] [[[97]]]).2 ≤ 1 := by
  have h := C7 [97] [] [[[97]]]
  constructor
  · rw [h.2.2.1 rfl]
    decide
  · exact h.2.2.2 true

/- ## C8 -/

/-- C8: when the filter token parses as an unsigned integer `n`, it is a
1-based index into the current candidate set: out of `[1, count]`
(including `n = 0`) the resolver fails after printing the full numbered
candidate list of root-joined paths; within range the `n`-th candidate is
selected directly, and the configured default rules never influence the
outcome (the substring stage is likewise never consulted). -/
theorem C8 (config : Config) (root : ByteStr) (q : Query) (wasCached : Bool)
    (initial fresh : List RelPath) (n : Nat)
    (hw : q.wanted ≠ [95]) (hparse : parseUsize q.filterBytes = some n) :
    (¬ (0 < n ∧ n ≤ ((candidatesAfter q.wanted wasCached initial fresh).1).length) →
      runResolve config root q wasCached initial fresh =
        RunResult.errIndexRange
          (((candidatesAfter q.wanted wasCached initial fresh).1).map (joinRoot root))) ∧
    (0 < n ∧ n ≤ ((candidatesAfter q.wanted wasCached initial fresh).1).length →
      runResolve config root q wasCached initial fresh =
        RunResult.ok (joinRoot root
          (((candidatesAfter q.wanted wasCached initial fresh).1).getD (n - 1) []) ++ [10])) ∧
    (∀ config2 : Config, runResolve config2 root q wasCached initial fresh =
      runResolve config root q wasCached initial fresh) := by
  refine ⟨?_, ?_, ?_⟩
  · intro hn
    simp only [runResolve, if_neg hw, hparse]
    rw [if_neg hn]
  · intro hn
    simp only [runResolve, if_neg hw, hparse]
    rw [if_pos hn]
  · intro config2
    simp only [runResolve, if_neg hw, hparse]

/-- C8 witness: with three name-matched candidates, filter `2` selects the
second candidate in current order, regardless of configured defaults. -/
theorem C8_witness :
    runResolve cfgC6 [114] ⟨[112], none, [50]⟩ false
        [[[97], [112]], [[98], [112]], [[99], [112]]] [] =
      RunResult.ok ([114, 47, 98, 47, 112, 10] : ByteStr) := by
  have h := C8 cfgC6 [114] ⟨[112], none, [50]⟩ false
    [[[97], [112]], [[98], [112]], [[99], [112]]] [] 2 (by decide) (by decide)
  rw [h.2.1 (by decide)]
  decide

/- ## C9 -/

theorem collectBasenames_eq_some (l : List RelPath) (h : ∀ p ∈ l, p ≠ []) :
    collectBasenames l = some (l.map (fun p => p.getLast?.getD [])) := by
  induction l with
  | nil => rfl
  | cons p rest ih =>
    obtain ⟨a, ha⟩ : ∃ a, p.getLast? = some a := by
      cases hq : p.getLast? with
      | some a => exact ⟨a, rfl⟩
      | none => exact absurd (List.getLast?_eq_none_iff.mp hq) (h p (by simp))
    have htail := ih (fun x hx => h x (by simp [hx]))
    simp only [collectBasenames, ha, htail, Option.map_some', List.map_cons]
    simp [ha]

theorem collectBasenames_eq_none (l : List RelPath) (h : ([] : RelPath) ∈ l) :
    collectBasenames l = none := by
  induction l with
  | nil => cases h
  | cons p rest ih =>
    rcases List.mem_cons.mp h with rfl | hm
    · rfl
    · cases hq : p.getLast? with
      | none => simp [collectBasenames, hq]
      | some a => simp [collectBasenames, hq, ih hm]

/-- C9 counterexample: when the search root is itself a repository the
scan emits the empty relative path, and the wildcard query then panics at
`file_name().unwrap()` (main.rs:214) instead of outputting basenames and
terminating successfully — `RunResult.panicked` is a different outcome
from every `RunResult.wildcardOut`, in particular from the listing the
claim predicts. -/
theorem C9_counterexample :
    runResolve cfgC6 [114] ⟨[95], none, []⟩ false [[]] [] = RunResult.panicked ∧
    RunResult.panicked ≠ RunResult.wildcardOut [[]] := by
  constructor
  · decide
  · decide

/-- C9 (amended): a `_` query against discovered entries that all have a
final path component outputs the de-duplicated set of basenames of every
entry — each exactly once — independently of the filter token, the
subdirectory suffix, the configuration and the cache state, with no name
matching, filtering or default rules applied; when the empty relative
path (a search root that is itself a repository) is among the entries,
the wildcard loop's `file_name().unwrap()` panics instead of producing
output. -/
theorem C9_amended (config : Config) (root : ByteStr) (q : Query) (wasCached : Bool)
    (initial fresh : List RelPath) (hw : q.wanted = [95]) :
    ((∀ p ∈ initial, p ≠ []) →
      runResolve config root q wasCached initial fresh =
        RunResult.wildcardOut ((initial.map (fun p => p.getLast?.getD [])).dedup) ∧
      ((initial.map (fun p => p.getLast?.getD [])).dedup).Nodup ∧
      (∀ b, b ∈ (initial.map (fun p => p.getLast?.getD [])).dedup ↔
        ∃ p ∈ initial, p.getLast? = some b)) ∧
    (([] : RelPath) ∈ initial →
      runResolve config root q wasCached initial fresh = RunResult.panicked) := by
  constructor
  · intro hne
    refine ⟨by simp [runResolve, hw, collectBasenames_eq_some initial hne],
      List.nodup_dedup _, ?_⟩
    intro b
    rw [List.mem_dedup, List.mem_map]
    constructor
    · rintro ⟨p, hp, hb⟩
      obtain ⟨a, ha⟩ : ∃ a, p.getLast? = some a := by
        cases hq : p.getLast? with
        | some a => exact ⟨a, rfl⟩
        | none => exact absurd (List.getLast?_eq_none_iff.mp hq) (hne p hp)
      refine ⟨p, hp, ?_⟩
      rw [ha] at hb ⊢
      simp only [Option.getD_some] at hb
      rw [hb]
    · rintro ⟨p, hp, hb⟩
      exact ⟨p, hp, by simp [hb]⟩
  · intro hmem
    simp [runResolve, hw, collectBasenames_eq_none initial hmem]

/-- C9 witness: entries `foo/p` and `bar/p` produce the single basename
`p` (exactly the basename set of the entries), while an entry set holding
the empty relative path panics. -/
theorem C9_amended_witness :
    runResolve cfgC6 [114] ⟨[95], some [47], [49]⟩ true
        [[[102, 111, 111], [112]], [[98, 97, 114], [112]]] [] =
      RunResult.wildcardOut [[112]] ∧
    ([112] : ByteStr) ∈ (([[[102, 111, 111], [112]], [[98, 97, 114], [112]]] :
        List RelPath).map (fun p => p.getLast?.getD [])).dedup ∧
    runResolve cfgC6 [114] ⟨[95], some [47], [49]⟩ true [[[112]], []] [] =
      RunResult.panicked := by
  have h := C9_amended cfgC6 [114] ⟨[95], some [47], [49]⟩ true
    [[[102, 111, 111], [112]], [[98, 97, 114], [112]]] [] rfl
  have hsucc := h.1 (by decide)
  have h2 := C9_amended cfgC6 [114] ⟨[95], some [47], [49]⟩ true
    [[[112]], []] [] rfl
  refine ⟨by rw [hsucc.1]; decide, ?_, h2.2 (by decide)⟩
  exact (hsucc.2.2 [112]).mpr ⟨[[102, 111, 111], [112]], by decide, by decide⟩

/- ## C10 -/

/-- C10: every candidate reaching the substring-filter stage was retained
by the name match, so its rendered byte length is at least the wanted
name's byte length — the `usize` subtraction computing the directory
prefix cannot underflow, and the prefix slice is in bounds. -/
theorem C10 (w : ByteStr) (wasCached : Bool) (initial fresh : List RelPath)
    (p : RelPath)
    (hp : p ∈ (candidatesAfter w wasCached initial fresh).1) :
    w.length ≤ (relBytes p).length ∧
    (relBytes p).length - w.length ≤ (relBytes p).length := by
  refine ⟨?_, Nat.sub_le _ _⟩
  have hend : pathEndsWith p w = true := by
    unfold candidatesAfter matchStage at hp
    split at hp
    · exact (List.mem_filter.mp hp).2
    · exact (List.mem_filter.mp hp).2
  unfold pathEndsWith at hend
  cases w with
  | nil => simp
  | cons a t =>
    rw [if_neg (by simp), decide_eq_true_eq] at hend
    exact length_le_relBytes (getLast_mem_of_eq_some hend)

/-- C10 witness: candidate `b/a` matched by wanted name `a` has rendered
length 3 ≥ 1. -/
theorem C10_witness :
    ([97] : ByteStr).length ≤ (relBytes [[98], [97]]).length :=
  (C10 [97] false [[[98], [97]]] [] [[98], [97]] (by decide)).1

/- ## C2 -/

/-- C2 counterexample: a successful resolution through a valid integer
index filter (query `a/s`, filter `1`) emits the joined path and a newline
but drops the verbatim `/s` suffix, so the claim that every successful
non-wildcard resolution appends the suffix is false at this input. -/
theorem C2_counterexample :
    runResolve cfgC6 [114] ⟨[97], some [47, 115], [49]⟩ false [[[97]]] [] =
      RunResult.ok ([114, 47, 97, 10] : ByteStr) ∧
    RunResult.ok ([114, 47, 97, 10] : ByteStr) ≠
      RunResult.ok (joinRoot [114] [[97]] ++ [47, 115] ++ [10]) := by
  constructor
  · decide
  · decide

/-- C2 (amended): every successful resolution of a non-wildcard query
emits the search root joined with the resolved relative path followed by a
single trailing newline; the query's verbatim subdirectory suffix is
appended exactly when resolution did not go through the integer index
filter (the index-filter success path omits the suffix). -/
theorem C2_amended (config : Config) (root : ByteStr) (q : Query) (wasCached : Bool)
    (initial fresh : List RelPath) (out : ByteStr)
    (hw : q.wanted ≠ [95])
    (h : runResolve config root q wasCached initial fresh = RunResult.ok out) :
    ∃ p : RelPath, out = joinRoot root p ++
      (if (parseUsize q.filterBytes).isSome then [] else q.subdir.getD []) ++ [10] := by
  simp only [runResolve, if_neg hw] at h
  cases hp : parseUsize q.filterBytes with
  | some idx =>
    simp only [hp] at h
    simp only [hp, Option.isSome_some, if_true]
    split at h
    · injection h with h
      exact ⟨_, by rw [← h, List.append_nil]⟩
    · cases h
  | none =>
    simp only [hp] at h
    simp only [hp, Option.isSome_none, Bool.false_eq_true, if_false]
    split at h
    · cases h
    · injection h with h
      exact ⟨_, h.symm⟩
    · split at h
      · injection h with h
        exact ⟨_, h.symm⟩
      · cases h

/-- C2 witness (amended claim): the index-filter resolution of the
counterexample input indeed has the amended shape — joined path, no
suffix, one newline. -/
theorem C2_amended_witness :
    ∃ p : RelPath, ([114, 47, 97, 10] : ByteStr) = joinRoot [114] p ++
      (if (parseUsize [49]).isSome then []
        else (some [47, 115] : Option ByteStr).getD []) ++ [10] :=
  C2_amended cfgC6 [114] ⟨[97], some [47, 115], [49]⟩ false [[[97]]] []
    [114, 47, 97, 10] (by decide) (by decide)

end Codeswitch
